import Mathlib

/-!
Verification of the multi-car paint shop model construction
(`carpaintshop.py` / `car_paint_shop.py` and `helper.py`).

The dimod models are shallowly embedded: a quadratic model is its offset
together with its linear and quadratic bias lists (dimod stores dictionaries;
a list representation sums the same energies, and duplicate entries add up
exactly as dimod accumulates biases).  All decision variables are BINARY, so
dimod reduces every self-product x*x to x when multiplying expressions; the
embedded expressions below are written in that reduced form, which agrees
with the source polynomials on every 0/1 assignment.  Energies are exact
rationals: every quantity the program manipulates here is an integer or a
product of integers with the penalty coefficient, on which Python float
arithmetic is exact for all realistic sizes.
-/

namespace PaintShop

/-- A quadratic expression over binary variables indexed by natural numbers:
offset, linear biases and quadratic biases, as a dimod `QuadraticModel` /
`BinaryQuadraticModel` stores them. -/
structure QuadExpr where
  offset : ℚ
  linear : List (ℕ × ℚ)
  quadratic : List (ℕ × ℕ × ℚ)
deriving Repr, DecidableEq

/-- Energy of a quadratic expression at an assignment `s`, as in
`qm.energy(sample)`. -/
def QuadExpr.energy (e : QuadExpr) (s : ℕ → ℚ) : ℚ :=
  e.offset + (e.linear.map (fun p => p.2 * s p.1)).sum
    + (e.quadratic.map (fun t => t.2.2 * s t.1 * s t.2.1)).sum

/-- The expression `quicksum((x[i+1] - x[i])**2 for i in range(len(x) - 1))`
of `get_paint_shop_cqm`.  Under BINARY vartype dimod expands the square
`(x[i+1] - x[i])**2` to `x[i] + x[i+1] - 2*x[i]*x[i+1]`. -/
def num_switches (N : ℕ) : QuadExpr where
  offset := 0
  linear := (List.range (N - 1)).map (fun i => (i, (1 : ℚ))) ++
    (List.range (N - 1)).map (fun i => (i + 1, (1 : ℚ)))
  quadratic := (List.range (N - 1)).map (fun i => (i, i + 1, (-2 : ℚ)))

/-- The mode-2 objective
`quicksum(-(2*x[i] - 1)*(2*x[i+1] - 1) for i in range(len(x) - 1))` of
`get_paint_shop_cqm`, expanded by dimod to
`2*x[i] + 2*x[i+1] - 4*x[i]*x[i+1] - 1` per adjacent pair. -/
def mode2Objective (N : ℕ) : QuadExpr where
  offset := -((N - 1 : ℕ) : ℚ)
  linear := (List.range (N - 1)).map (fun i => (i, (2 : ℚ))) ++
    (List.range (N - 1)).map (fun i => (i + 1, (2 : ℚ)))
  quadratic := (List.range (N - 1)).map (fun i => (i, i + 1, (-4 : ℚ)))

/-- The sense of a dimod constraint comparison. -/
inductive Sense where
  | eq
  | le
  | ge
deriving Repr, DecidableEq

/-- A constraint as added by `cqm.add_constraint(quicksum(x[i] for i in index)
== number)`: the left-hand side is the sum of the decision variables at the
listed positions. -/
structure PSConstraint where
  indices : List ℕ
  sense : Sense
  rhs : ℚ
deriving Repr, DecidableEq

/-- Value of the left-hand side of a constraint at an assignment. -/
def PSConstraint.lhsEnergy (c : PSConstraint) (s : ℕ → ℚ) : ℚ :=
  (c.indices.map s).sum

/-- A constraint holds at an assignment, per its comparison sense. -/
def PSConstraint.satisfiedBy (c : PSConstraint) (s : ℕ → ℚ) : Prop :=
  match c.sense with
  | Sense.eq => c.lhsEnergy s = c.rhs
  | Sense.le => c.lhsEnergy s ≤ c.rhs
  | Sense.ge => c.rhs ≤ c.lhsEnergy s

/-- A `dimod.ConstrainedQuadraticModel`: an objective and labelled
constraints, the labels being the categories the builder iterates over. -/
structure CQM (α : Type) where
  objective : QuadExpr
  constraints : List (α × PSConstraint)

/-- Feasibility as in `cqm.check_feasible(sample)`: every constraint holds. -/
def CQM.feasible {α : Type} (cqm : CQM α) (s : ℕ → ℚ) : Prop :=
  ∀ c ∈ cqm.constraints, c.2.satisfiedBy s

/-- Index accumulation for `[i for i, c in enumerate(sequence) if c == car]`,
carrying the running index of `enumerate`. -/
def positionsAux {α : Type} [DecidableEq α] (car : α) : ℕ → List α → List ℕ
  | _, [] => []
  | n, c :: rest =>
      if c = car then n :: positionsAux car (n + 1) rest
      else positionsAux car (n + 1) rest

/-- The list `[i for i, c in enumerate(sequence) if c == car]`. -/
def positionsOf {α : Type} [DecidableEq α] (sequence : List α) (car : α) : List ℕ :=
  positionsAux car 0 sequence

/-- `get_paint_shop_cqm(sequence, k, mode)`: the CQM whose objective is the
switch count (mode 1) or the reparameterized form (any other mode), with one
equality constraint per entry of `k`, together with the raw switch-count
expression as second return value. -/
def get_paint_shop_cqm {α : Type} [DecidableEq α] (sequence : List α)
    (k : List (α × ℚ)) (mode : ℤ) : CQM α × QuadExpr :=
  let N := sequence.length
  let ns := num_switches N
  let obj := if mode = 1 then ns else mode2Objective N
  let cons := k.map (fun p =>
    (p.1, PSConstraint.mk (positionsOf sequence p.1) Sense.eq p.2))
  (CQM.mk obj cons, ns)

/-- The number of adjacent positions at which the assignment changes value,
over a sequence of length `N`. -/
def switchCount (N : ℕ) (s : ℕ → ℚ) : ℕ :=
  ((Finset.range (N - 1)).filter (fun i => s i ≠ s (i + 1))).card

/-- `bqm.update(other)`: biases of `other` are added into `bqm`. -/
def QuadExpr.update (e f : QuadExpr) : QuadExpr where
  offset := e.offset + f.offset
  linear := e.linear ++ f.linear
  quadratic := e.quadratic ++ f.quadratic

/-- The expansion of `penalty * (c.lhs - c.rhs) ** 2` that
`get_paint_shop_bqm` adds for a constraint whose left-hand side is
`quicksum(x[i] for i in ind)`.  dimod multiplies `(lhs - rhs)` with itself by
pairing variables: a pair of equal variables contributes a linear bias
because BINARY variables satisfy x*x = x, a pair of distinct variables
contributes a quadratic bias; the cross terms with the offset `-rhs`
contribute `-2*rhs` per variable, and the offset picks up `rhs**2`. -/
def penaltyExpansion (penalty : ℚ) (ind : List ℕ) (rhs : ℚ) : QuadExpr where
  offset := penalty * rhs ^ 2
  linear := ind.map (fun i => (i, -2 * penalty * rhs)) ++
    ind.flatMap (fun i =>
      ind.filterMap (fun j => if i = j then some (j, penalty) else none))
  quadratic := ind.flatMap (fun i =>
    ind.filterMap (fun j => if i = j then none else some (i, j, penalty)))

/-- `get_paint_shop_bqm(cqm, penalty)`: the BQM starts from the objective
offset, linear and quadratic biases, then every constraint - whatever its
sense - is folded in as `penalty * (lhs - rhs) ** 2`.  The source performs
no check on the constraint type. -/
def get_paint_shop_bqm {α : Type} (cqm : CQM α) (penalty : ℚ) : QuadExpr :=
  cqm.constraints.foldl
    (fun bqm c => bqm.update (penaltyExpansion penalty c.2.indices c.2.rhs))
    (QuadExpr.mk cqm.objective.offset cqm.objective.linear cqm.objective.quadratic)

/-- Python truthiness of the optional `min_colors` / `max_colors` arguments
of `get_random_sequence`: both `None` and `0` are falsy, so `not arg` selects
the default bound in either case. -/
def pyTruthy : Option ℕ → Bool
  | none => false
  | some n => !(n == 0)

/-- `a = int(num_colors * 1 / 3) if not min_colors else min_colors` for a
category occurring `cars` times.  Python float division by 3 followed by
`int` truncation equals natural division by 3 on these integer counts. -/
def rawLowerBound (cars : ℕ) (min_colors : Option ℕ) : ℕ :=
  if pyTruthy min_colors then min_colors.getD 0 else cars / 3

/-- `b = int(num_colors * 2 / 3) if not max_colors else max_colors`. -/
def rawUpperBound (cars : ℕ) (max_colors : Option ℕ) : ℕ :=
  if pyTruthy max_colors then max_colors.getD 0 else cars * 2 / 3

/-- The demand bounds computed by `get_random_sequence` for a category
occurring `cars` times: the raw bounds `a`, `b`, then `if b <= a: b = a + 1`,
the result feeding `np.random.randint(a, b)`. -/
def demandBounds (cars : ℕ) (min_colors max_colors : Option ℕ) : ℕ × ℕ :=
  let a := rawLowerBound cars min_colors
  let b := rawUpperBound cars max_colors
  if b ≤ a then (a, a + 1) else (a, b)

/-- The `counts` dictionary of `get_random_sequence`, built from
`np.unique(sequence, return_counts=True)`: every distinct label of the
sequence paired with its number of occurrences.  (`np.unique` additionally
sorts the labels; the order of the pairs is irrelevant to every claim, and
the random draws are modelled per category, so it is dropped.) -/
def countsOf (sequence : List ℤ) : List (ℤ × ℕ) :=
  sequence.dedup.map (fun v => (v, sequence.count v))

/-- An oracle standing for `np.random.randint`: for every category and every
non-empty half-open range `[a, b)`, the draw lands in the range.  Theorems
quantifying over all such oracles cover every possible stream of draws. -/
def RandintOracle (draw : ℤ → ℕ → ℕ → ℕ) : Prop :=
  ∀ c a b, a < b → a ≤ draw c a b ∧ draw c a b < b

/-- The demand mapping built by `get_random_sequence`: for each category of
the counts dictionary, a draw `np.random.randint(a, b)` with the computed
bounds.  The sequence itself is an arbitrary output of the earlier
`np.random.randint(0, unique_cars, size=num_cars)` and is taken as given. -/
def get_random_sequence_mapping (sequence : List ℤ)
    (min_colors max_colors : Option ℕ) (draw : ℤ → ℕ → ℕ → ℕ) :
    List (ℤ × ℕ) :=
  (countsOf sequence).map (fun p =>
    (p.1, draw p.1 (demandBounds p.2 min_colors max_colors).1
      (demandBounds p.2 min_colors max_colors).2))

/-- The oracle that always draws the lower bound of the range. -/
def lowDraw : ℤ → ℕ → ℕ → ℕ := fun _ a _ => a

/-- A YAML problem document as consumed by `load_from_yml`: a mapping with a
`sequence` field (ordered list of category labels) and a `counts` field
(mapping from category to required count); integer scalars round-trip
exactly through `yaml.safe_load`. -/
structure YamlDoc where
  sequence : List ℤ
  counts : List (ℤ × ℤ)
deriving Repr, DecidableEq

/-- `load_from_yml(filename)`: returns `data['sequence'], data['counts']`. -/
def load_from_yml (d : YamlDoc) : List ℤ × List (ℤ × ℤ) :=
  (d.sequence, d.counts)

/-- Modelled from the spec: `save_sequence_to_yaml` is imported from
`helper` by `car_paint_shop.py` and by the tests, but its definition is
absent from `src/helper.py`.  Per the spec it writes a structured document
with the two fields `sequence` and `counts` holding exactly the given
sequence and demand mapping. -/
def save_sequence_to_yaml (sequence : List ℤ) (counts : List (ℤ × ℤ)) :
    YamlDoc :=
  YamlDoc.mk sequence counts

/-- A constrained model with a single inequality (less-or-equal) constraint
`x0 <= 1`, for exercising `get_paint_shop_bqm` on a constraint that is not a
linear equality. -/
def ineqCQM : CQM ℤ where
  objective := QuadExpr.mk 0 [] []
  constraints := [(0, PSConstraint.mk [0] Sense.le 1)]

/-- The same model with the constraint sense replaced by equality. -/
def eqSenseCQM : CQM ℤ where
  objective := QuadExpr.mk 0 [] []
  constraints := [(0, PSConstraint.mk [0] Sense.eq 1)]

/-- Replace every constraint sense of a model by equality, keeping the
left-hand sides and right-hand sides. -/
def CQM.withEqSenses {α : Type} (cqm : CQM α) : CQM α where
  objective := cqm.objective
  constraints := cqm.constraints.map (fun c =>
    (c.1, PSConstraint.mk c.2.indices Sense.eq c.2.rhs))

/-- A concrete 0/1 assignment used to instantiate hypothesised theorems:
position 0 gets 0, every other position gets 1. -/
def demoAssign : ℕ → ℚ := fun i => if i = 0 then 0 else 1

theorem sum_map_range (f : ℕ → ℚ) (n : ℕ) :
    ((List.range n).map f).sum = ∑ i ∈ Finset.range n, f i := by
  induction n with
  | zero => simp
  | succ m ih =>
      rw [List.range_succ, List.map_append, List.sum_append,
        Finset.sum_range_succ, ih]
      simp

theorem list_sum_map_congr {β : Type} (l : List β) (f g : β → ℚ)
    (h : ∀ x ∈ l, f x = g x) : (l.map f).sum = (l.map g).sum := by
  induction l with
  | nil => rfl
  | cons a t ih =>
      simp only [List.map_cons, List.sum_cons]
      rw [h a (List.mem_cons_self a t),
        ih (fun x hx => h x (List.mem_cons_of_mem a hx))]

theorem list_sum_map_add {β : Type} (l : List β) (f g : β → ℚ) :
    (l.map (fun x => f x + g x)).sum = (l.map f).sum + (l.map g).sum := by
  induction l with
  | nil => simp
  | cons a t ih => simp only [List.map_cons, List.sum_cons]; rw [ih]; ring

theorem list_sum_map_mul_left {β : Type} (l : List β) (c : ℚ) (f : β → ℚ) :
    (l.map (fun x => c * f x)).sum = c * (l.map f).sum := by
  induction l with
  | nil => simp
  | cons a t ih => simp only [List.map_cons, List.sum_cons]; rw [ih]; ring

theorem list_sum_map_one {β : Type} (l : List β) :
    (l.map (fun _ => (1 : ℚ))).sum = (l.length : ℚ) := by
  induction l with
  | nil => simp
  | cons a t ih => simp only [List.map_cons, List.sum_cons, List.length_cons]
                   rw [ih]; push_cast; ring

theorem energy_pair_form (n : ℕ) (c0 cl cq : ℚ) (s : ℕ → ℚ) :
    (QuadExpr.mk c0
      ((List.range n).map (fun i => (i, cl)) ++
        (List.range n).map (fun i => (i + 1, cl)))
      ((List.range n).map (fun i => (i, i + 1, cq)))).energy s
    = c0 + ∑ i ∈ Finset.range n,
        (cl * s i + cl * s (i + 1) + cq * s i * s (i + 1)) := by
  unfold QuadExpr.energy
  simp only [List.map_append, List.sum_append, List.map_map]
  rw [sum_map_range, sum_map_range, sum_map_range]
  simp only [Function.comp_apply]
  have hsplit : ∑ i ∈ Finset.range n,
      (cl * s i + cl * s (i + 1) + cq * s i * s (i + 1))
      = (∑ i ∈ Finset.range n, cl * s i)
        + (∑ i ∈ Finset.range n, cl * s (i + 1))
        + ∑ i ∈ Finset.range n, cq * s i * s (i + 1) := by
    rw [Finset.sum_add_distrib, Finset.sum_add_distrib]
  rw [hsplit]
  ring

theorem num_switches_energy (N : ℕ) (s : ℕ → ℚ)
    (hs : ∀ i < N, s i = 0 ∨ s i = 1) :
    (num_switches N).energy s = (switchCount N s : ℚ) := by
  unfold num_switches switchCount
  rw [energy_pair_form, Finset.card_filter]
  push_cast
  rw [zero_add]
  refine Finset.sum_congr rfl ?_
  intro i hi
  have hiN : i < N := by have := Finset.mem_range.mp hi; omega
  have hi1N : i + 1 < N := by have := Finset.mem_range.mp hi; omega
  rcases hs i hiN with h1 | h1 <;> rcases hs (i + 1) hi1N with h2 | h2 <;>
    rw [h1, h2] <;> norm_num

theorem mode2_energy (N : ℕ) (s : ℕ → ℚ)
    (hs : ∀ i < N, s i = 0 ∨ s i = 1) :
    (mode2Objective N).energy s
      = 2 * (switchCount N s : ℚ) - ((N - 1 : ℕ) : ℚ) := by
  unfold mode2Objective switchCount
  rw [energy_pair_form, Finset.card_filter]
  push_cast
  have hpt : ∀ i ∈ Finset.range (N - 1),
      2 * s i + 2 * s (i + 1) + (-4) * s i * s (i + 1)
        = 2 * (if s i ≠ s (i + 1) then (1 : ℚ) else 0) := by
    intro i hi
    have hiN : i < N := by have := Finset.mem_range.mp hi; omega
    have hi1N : i + 1 < N := by have := Finset.mem_range.mp hi; omega
    rcases hs i hiN with h1 | h1 <;> rcases hs (i + 1) hi1N with h2 | h2 <;>
      rw [h1, h2] <;> norm_num
  rw [Finset.sum_congr rfl hpt, ← Finset.mul_sum]
  ring

theorem mem_positionsAux {α : Type} [DecidableEq α] (car : α) :
    ∀ (l : List α) (n i : ℕ), i ∈ positionsAux car n l →
      n ≤ i ∧ i < n + l.length := by
  intro l
  induction l with
  | nil => intro n i h; simp [positionsAux] at h
  | cons c rest ih =>
      intro n i h
      unfold positionsAux at h
      simp only [List.length_cons]
      by_cases hc : c = car
      · rw [if_pos hc] at h
        rcases List.mem_cons.mp h with h | h
        · omega
        · have := ih (n + 1) i h; omega
      · rw [if_neg hc] at h
        have := ih (n + 1) i h; omega

theorem length_positionsAux {α : Type} [DecidableEq α] (car : α) :
    ∀ (l : List α) (n : ℕ), (positionsAux car n l).length = l.count car := by
  intro l
  induction l with
  | nil => intro n; rfl
  | cons c rest ih =>
      intro n
      unfold positionsAux
      by_cases hc : c = car
      · rw [if_pos hc]; simp [List.count_cons, hc, ih]
      · rw [if_neg hc]; simp [List.count_cons, hc, ih]

theorem nodup_positionsAux {α : Type} [DecidableEq α] (car : α) :
    ∀ (l : List α) (n : ℕ), (positionsAux car n l).Nodup := by
  intro l
  induction l with
  | nil => intro n; simp [positionsAux]
  | cons c rest ih =>
      intro n
      unfold positionsAux
      by_cases hc : c = car
      · rw [if_pos hc]
        refine List.nodup_cons.mpr ⟨?_, ih (n + 1)⟩
        intro hmem
        have := mem_positionsAux car rest (n + 1) n hmem
        omega
      · rw [if_neg hc]; exact ih (n + 1)

theorem energy_update (e f : QuadExpr) (s : ℕ → ℚ) :
    (e.update f).energy s = e.energy s + f.energy s := by
  unfold QuadExpr.update QuadExpr.energy
  simp only [List.map_append, List.sum_append]
  ring

theorem energy_foldl_penalty {α : Type} (p : ℚ) (s : ℕ → ℚ) :
    ∀ (l : List (α × PSConstraint)) (e : QuadExpr),
    (l.foldl
        (fun bqm c => bqm.update (penaltyExpansion p c.2.indices c.2.rhs))
        e).energy s
      = e.energy s
        + (l.map
            (fun c => (penaltyExpansion p c.2.indices c.2.rhs).energy s)).sum := by
  intro l
  induction l with
  | nil => intro e; simp
  | cons a t ih =>
      intro e
      simp only [List.foldl_cons, List.map_cons, List.sum_cons]
      rw [ih, energy_update]
      ring

theorem sum_map_flatMap {β γ : Type} (l : List β) (f : β → List γ)
    (g : γ → ℚ) :
    ((l.flatMap f).map g).sum
      = (l.map (fun i => ((f i).map g).sum)).sum := by
  induction l with
  | nil => rfl
  | cons a t ih =>
      simp only [List.flatMap_cons, List.map_append, List.sum_append,
        List.map_cons, List.sum_cons, ih]

theorem inner_penalty_sum (p : ℚ) (s : ℕ → ℚ) (i : ℕ)
    (hi : s i = 0 ∨ s i = 1) :
    ∀ l : List ℕ,
    ((l.filterMap (fun j => if i = j then some (j, p) else none)).map
        (fun q => q.2 * s q.1)).sum
      + ((l.filterMap (fun j => if i = j then none else some (i, j, p))).map
          (fun t => t.2.2 * s t.1 * s t.2.1)).sum
      = p * s i * (l.map s).sum := by
  intro l
  induction l with
  | nil => simp
  | cons a t ih =>
      by_cases hia : i = a
      · subst hia
        have e1 : (i :: t).filterMap
              (fun j => if i = j then some (j, p) else none)
            = (i, p) ::
              t.filterMap (fun j => if i = j then some (j, p) else none) := by
          simp [List.filterMap_cons]
        have e2 : (i :: t).filterMap
              (fun j => if i = j then none else some (i, j, p))
            = t.filterMap (fun j => if i = j then none else some (i, j, p)) := by
          simp [List.filterMap_cons]
        rw [e1, e2, List.map_cons, List.sum_cons, List.map_cons,
          List.sum_cons]
        have hsq : s i * s i = s i := by
          rcases hi with h | h <;> rw [h] <;> ring
        linear_combination ih - p * hsq
      · have e1 : (a :: t).filterMap
              (fun j => if i = j then some (j, p) else none)
            = t.filterMap (fun j => if i = j then some (j, p) else none) := by
          simp [List.filterMap_cons, hia]
        have e2 : (a :: t).filterMap
              (fun j => if i = j then none else some (i, j, p))
            = (i, a, p) ::
              t.filterMap (fun j => if i = j then none else some (i, j, p)) := by
          simp [List.filterMap_cons, hia]
        rw [e1, e2, List.map_cons, List.sum_cons, List.map_cons,
          List.sum_cons]
        linear_combination ih

theorem penalty_energy (p r : ℚ) (s : ℕ → ℚ) (ind : List ℕ)
    (hs : ∀ i ∈ ind, s i = 0 ∨ s i = 1) :
    (penaltyExpansion p ind r).energy s
      = p * ((ind.map s).sum - r) ^ 2 := by
  unfold penaltyExpansion QuadExpr.energy
  simp only [List.map_append, List.sum_append, List.map_map]
  rw [sum_map_flatMap, sum_map_flatMap]
  have hcross :
      (ind.map ((fun q : ℕ × ℚ => q.2 * s q.1) ∘
        fun i => (i, -2 * p * r))).sum
        = -2 * p * r * (ind.map s).sum := by
    rw [show (fun q : ℕ × ℚ => q.2 * s q.1) ∘ (fun i => (i, -2 * p * r))
        = fun i => -2 * p * r * s i from rfl]
    exact list_sum_map_mul_left ind (-2 * p * r) s
  have hsquare :
      (ind.map (fun i =>
        ((ind.filterMap (fun j => if i = j then some (j, p) else none)).map
          (fun q => q.2 * s q.1)).sum)).sum
      + (ind.map (fun i =>
          ((ind.filterMap
              (fun j => if i = j then none else some (i, j, p))).map
            (fun t => t.2.2 * s t.1 * s t.2.1)).sum)).sum
      = p * (ind.map s).sum * (ind.map s).sum := by
    rw [← list_sum_map_add]
    rw [list_sum_map_congr _ _
      (fun i => p * s i * (ind.map s).sum)
      (fun i hi => inner_penalty_sum p s i (hs i hi) ind)]
    rw [list_sum_map_congr _ _
      (fun i => (p * (ind.map s).sum) * s i) (fun i _ => by ring)]
    rw [list_sum_map_mul_left]
  rw [hcross]
  rw [show ∀ a b c d : ℚ, a + (b + c) + d = a + b + (c + d) from
    fun a b c d => by ring]
  rw [hsquare]
  ring

theorem bqm_energy {α : Type} (cqm : CQM α) (p : ℚ) (s : ℕ → ℚ)
    (hs : ∀ c ∈ cqm.constraints, ∀ i ∈ c.2.indices, s i = 0 ∨ s i = 1) :
    (get_paint_shop_bqm cqm p).energy s
      = cqm.objective.energy s
        + (cqm.constraints.map
            (fun c => p * (c.2.lhsEnergy s - c.2.rhs) ^ 2)).sum := by
  unfold get_paint_shop_bqm
  rw [energy_foldl_penalty]
  have hinit : (QuadExpr.mk cqm.objective.offset cqm.objective.linear
      cqm.objective.quadratic).energy s = cqm.objective.energy s := rfl
  rw [hinit]
  congr 1
  apply list_sum_map_congr
  intro c hc
  rw [penalty_energy p c.2.rhs s c.2.indices (hs c hc)]
  rfl

theorem list_sum_map_zero {β : Type} (l : List β) :
    (l.map (fun _ => (0 : ℚ))).sum = 0 := by
  induction l with
  | nil => rfl
  | cons a t ih => simp only [List.map_cons, List.sum_cons, ih, add_zero]

theorem filter_key_singleton {α β : Type} [DecidableEq α] :
    ∀ (k : List (α × β)) (p : α × β), (k.map Prod.fst).Nodup → p ∈ k →
      k.filter (fun q => q.1 = p.1) = [p] := by
  intro k
  induction k with
  | nil => intro p _ hp; cases hp
  | cons a t ih =>
      intro p hnd hp
      simp only [List.map_cons, List.nodup_cons] at hnd
      rcases List.mem_cons.mp hp with h | h
      · subst h
        rw [List.filter_cons_of_pos (by simp)]
        have hnil : t.filter (fun q => decide (q.1 = p.1)) = [] := by
          rw [List.filter_eq_nil_iff]
          intro q hq
          simp only [decide_eq_true_eq]
          intro he
          exact hnd.1 (by rw [← he]; exact List.mem_map_of_mem Prod.fst hq)
        rw [hnil]
      · have hne : ¬(a.1 = p.1) := fun he =>
          hnd.1 (by rw [he]; exact List.mem_map_of_mem Prod.fst h)
        rw [List.filter_cons_of_neg (by simp [hne])]
        exact ih p hnd.2 h

theorem exists_binary_sum (l : List ℕ) (hl : l.Nodup) (d : ℕ)
    (hd : d ≤ l.length) :
    ∃ s : ℕ → ℚ, (∀ i, s i = 0 ∨ s i = 1) ∧ (l.map s).sum = (d : ℚ) := by
  refine ⟨fun i => if i ∈ l.take d then 1 else 0, ?_, ?_⟩
  · intro i; by_cases h : i ∈ l.take d <;> simp [h]
  · have hsplit : (l.map (fun i => if i ∈ l.take d then (1 : ℚ) else 0)).sum
        = ((l.take d ++ l.drop d).map
            (fun i => if i ∈ l.take d then (1 : ℚ) else 0)).sum := by
      rw [List.take_append_drop]
    rw [hsplit, List.map_append, List.sum_append]
    have h1 : ((l.take d).map
          (fun i => if i ∈ l.take d then (1 : ℚ) else 0)).sum
        = ((l.take d).map (fun _ => (1 : ℚ))).sum :=
      list_sum_map_congr _ _ _ (fun i hi => by simp [hi])
    have h2 : ((l.drop d).map
          (fun i => if i ∈ l.take d then (1 : ℚ) else 0)).sum
        = ((l.drop d).map (fun _ => (0 : ℚ))).sum :=
      list_sum_map_congr _ _ _ (fun i hi => by
        have hnot : i ∉ l.take d := fun hmem =>
          (List.disjoint_take_drop hl (le_refl d)) hmem hi
        simp [hnot])
    rw [h1, h2, list_sum_map_one, list_sum_map_zero, add_zero,
      List.length_take]
    congr 1
    omega

theorem demandBounds_lt (cars : ℕ) (mn mx : Option ℕ) :
    (demandBounds cars mn mx).1 < (demandBounds cars mn mx).2 := by
  unfold demandBounds
  dsimp only
  split <;> dsimp only <;> omega

theorem demandBounds_adjust (cars : ℕ) (mn mx : Option ℕ)
    (h : rawUpperBound cars mx ≤ rawLowerBound cars mn) :
    demandBounds cars mn mx
      = (rawLowerBound cars mn, rawLowerBound cars mn + 1) := by
  unfold demandBounds
  dsimp only
  rw [if_pos h]

theorem demandBounds_default_unfold (cars : ℕ) :
    demandBounds cars none none
      = if cars * 2 / 3 ≤ cars / 3 then (cars / 3, cars / 3 + 1)
        else (cars / 3, cars * 2 / 3) := rfl

theorem demandBounds_default_fst (cars : ℕ) :
    (demandBounds cars none none).1 = cars / 3 := by
  rw [demandBounds_default_unfold]
  split <;> rfl

theorem demandBounds_default_snd (cars : ℕ) :
    (demandBounds cars none none).2
      = max (cars * 2 / 3) (cars / 3 + 1) := by
  rw [demandBounds_default_unfold]
  split
  · rename_i hc
    show cars / 3 + 1 = max (cars * 2 / 3) (cars / 3 + 1)
    omega
  · rename_i hc
    show cars * 2 / 3 = max (cars * 2 / 3) (cars / 3 + 1)
    omega

theorem mapping_mem_characterize (sequence : List ℤ)
    (mn mx : Option ℕ) (draw : ℤ → ℕ → ℕ → ℕ) (car : ℤ) (d : ℕ)
    (hmem : (car, d) ∈ get_random_sequence_mapping sequence mn mx draw) :
    car ∈ sequence ∧
    d = draw car (demandBounds (sequence.count car) mn mx).1
      (demandBounds (sequence.count car) mn mx).2 := by
  unfold get_random_sequence_mapping countsOf at hmem
  rw [List.map_map] at hmem
  obtain ⟨v, hv, heq⟩ := List.mem_map.mp hmem
  simp only [Function.comp_apply] at heq
  injection heq with h1 h2
  subst h1
  exact ⟨List.mem_dedup.mp hv, h2.symm⟩

/-- Claim C1: for every sequence of length N at least 1 and every 0/1
assignment to the N binary decision variables, the energy of the objective
built by `get_paint_shop_cqm` with mode = 1 equals the number of indices i
in 0..N-2 at which the assignment at position i differs from the assignment
at i+1; for a sequence of length 1 the builder does not fail and the
objective has no terms, so its energy is 0 on every assignment. -/
theorem claim_c1 {α : Type} [DecidableEq α] (sequence : List α)
    (k : List (α × ℚ)) (s : ℕ → ℚ) (_hN : 1 ≤ sequence.length)
    (hs : ∀ i < sequence.length, s i = 0 ∨ s i = 1) :
    (get_paint_shop_cqm sequence k 1).1.objective.energy s
      = (switchCount sequence.length s : ℚ) ∧
    (sequence.length = 1 →
      (get_paint_shop_cqm sequence k 1).1.objective = QuadExpr.mk 0 [] [] ∧
      (get_paint_shop_cqm sequence k 1).1.objective.energy s = 0) := by
  have hobj : (get_paint_shop_cqm sequence k 1).1.objective
      = num_switches sequence.length := rfl
  refine ⟨?_, ?_⟩
  · rw [hobj]; exact num_switches_energy _ s hs
  · intro h1
    rw [hobj, h1]
    refine ⟨rfl, ?_⟩
    show (num_switches 1).energy s = 0
    simp [num_switches, QuadExpr.energy]

/-- Witness for C1 at the length-1 sequence `[5]`. -/
theorem claim_c1_witness :
    (get_paint_shop_cqm ([5] : List ℤ) ([] : List (ℤ × ℚ)) 1).1.objective.energy
        demoAssign
      = (switchCount ([5] : List ℤ).length demoAssign : ℚ) ∧
    (([5] : List ℤ).length = 1 →
      (get_paint_shop_cqm ([5] : List ℤ) ([] : List (ℤ × ℚ)) 1).1.objective
          = QuadExpr.mk 0 [] [] ∧
      (get_paint_shop_cqm ([5] : List ℤ) ([] : List (ℤ × ℚ)) 1).1.objective.energy
          demoAssign = 0) :=
  claim_c1 [5] [] demoAssign (by decide) (by decide)

/-- Claim C4: for every sequence of length N at least 1 and every 0/1
assignment, the energy of the objective built by `get_paint_shop_cqm` with
mode different from 1 (the sum over adjacent pairs of
-(2x[i]-1)(2x[i+1]-1)) equals 2 times the mode-1 switch count of the
assignment minus (N-1). -/
theorem claim_c4 {α : Type} [DecidableEq α] (sequence : List α)
    (k : List (α × ℚ)) (mode : ℤ) (s : ℕ → ℚ) (hmode : mode ≠ 1)
    (hN : 1 ≤ sequence.length)
    (hs : ∀ i < sequence.length, s i = 0 ∨ s i = 1) :
    (get_paint_shop_cqm sequence k mode).1.objective.energy s
      = 2 * (switchCount sequence.length s : ℚ)
        - ((sequence.length : ℚ) - 1) := by
  have hobj : (get_paint_shop_cqm sequence k mode).1.objective
      = mode2Objective sequence.length := by
    unfold get_paint_shop_cqm
    dsimp only
    rw [if_neg hmode]
  rw [hobj, mode2_energy _ s hs, Nat.cast_sub hN, Nat.cast_one]

/-- Witness for C4 at the sequence `[1, 2]` with mode 2. -/
theorem claim_c4_witness :
    (get_paint_shop_cqm ([1, 2] : List ℤ) ([] : List (ℤ × ℚ)) 2).1.objective.energy
        demoAssign
      = 2 * (switchCount ([1, 2] : List ℤ).length demoAssign : ℚ)
        - ((([1, 2] : List ℤ).length : ℚ) - 1) :=
  claim_c4 [1, 2] [] 2 demoAssign (by decide) (by decide) (by decide)

/-- Claim C5: for every sequence, demand mapping and mode, the second value
returned by `get_paint_shop_cqm` is the raw switch-count expression: its
energy on any 0/1 assignment equals the number of adjacent positions at
which the assignment differs, whatever objective is active in the model. -/
theorem claim_c5 {α : Type} [DecidableEq α] (sequence : List α)
    (k : List (α × ℚ)) (mode : ℤ) (s : ℕ → ℚ)
    (hs : ∀ i < sequence.length, s i = 0 ∨ s i = 1) :
    (get_paint_shop_cqm sequence k mode).2.energy s
      = (switchCount sequence.length s : ℚ) := by
  have h2 : (get_paint_shop_cqm sequence k mode).2
      = num_switches sequence.length := rfl
  rw [h2]
  exact num_switches_energy _ s hs

/-- Witness for C5 at the sequence `[1, 2]` with mode 2, where the active
objective is the reparameterized form. -/
theorem claim_c5_witness :
    (get_paint_shop_cqm ([1, 2] : List ℤ) ([] : List (ℤ × ℚ)) 2).2.energy
        demoAssign
      = (switchCount ([1, 2] : List ℤ).length demoAssign : ℚ) :=
  claim_c5 [1, 2] [] 2 demoAssign (by decide)

/-- Claim C2: for every sequence, every demand mapping whose keys all appear
in the sequence, and every mode, the model built by `get_paint_shop_cqm`
contains exactly one equality constraint per category of the demand mapping,
whose left-hand side is the sum of the decision variables at the positions
of that category and whose right-hand side is the demand of that category;
at any feasible 0/1 assignment the left-hand side for category c equals the
demand for c. -/
theorem claim_c2 {α : Type} [DecidableEq α] (sequence : List α)
    (k : List (α × ℚ)) (mode : ℤ)
    (_hkeys : ∀ p ∈ k, p.1 ∈ sequence)
    (hnd : (k.map Prod.fst).Nodup) :
    (∀ p ∈ k,
      (get_paint_shop_cqm sequence k mode).1.constraints.filter
          (fun c => c.1 = p.1)
        = [(p.1, PSConstraint.mk (positionsOf sequence p.1) Sense.eq p.2)]) ∧
    (∀ s : ℕ → ℚ, (get_paint_shop_cqm sequence k mode).1.feasible s →
      ∀ p ∈ k,
        (PSConstraint.mk (positionsOf sequence p.1) Sense.eq p.2).lhsEnergy s
          = p.2) := by
  have hcons : (get_paint_shop_cqm sequence k mode).1.constraints
      = k.map (fun p =>
          (p.1, PSConstraint.mk (positionsOf sequence p.1) Sense.eq p.2)) := rfl
  constructor
  · intro p hp
    rw [hcons, List.filter_map]
    have hcomp : ((fun c : α × PSConstraint => decide (c.1 = p.1)) ∘
        (fun q : α × ℚ =>
          (q.1, PSConstraint.mk (positionsOf sequence q.1) Sense.eq q.2)))
        = fun q : α × ℚ => decide (q.1 = p.1) := rfl
    rw [hcomp, filter_key_singleton k p hnd hp, List.map_cons, List.map_nil]
  · intro s hf p hp
    have hdmem : (p.1, PSConstraint.mk (positionsOf sequence p.1) Sense.eq p.2)
        ∈ (get_paint_shop_cqm sequence k mode).1.constraints := by
      rw [hcons]
      exact List.mem_map_of_mem _ hp
    exact hf _ hdmem

/-- Witness for C2 at the test scenario `[1,2,3,1,2,3]` with unit demands. -/
theorem claim_c2_witness :
    (∀ p ∈ ([(1, 1), (2, 1), (3, 1)] : List (ℤ × ℚ)),
      (get_paint_shop_cqm ([1, 2, 3, 1, 2, 3] : List ℤ)
          [(1, 1), (2, 1), (3, 1)] 1).1.constraints.filter
          (fun c => c.1 = p.1)
        = [(p.1,
            PSConstraint.mk (positionsOf ([1, 2, 3, 1, 2, 3] : List ℤ) p.1)
              Sense.eq p.2)]) ∧
    (∀ s : ℕ → ℚ,
      (get_paint_shop_cqm ([1, 2, 3, 1, 2, 3] : List ℤ)
          [(1, 1), (2, 1), (3, 1)] 1).1.feasible s →
      ∀ p ∈ ([(1, 1), (2, 1), (3, 1)] : List (ℤ × ℚ)),
        (PSConstraint.mk (positionsOf ([1, 2, 3, 1, 2, 3] : List ℤ) p.1)
            Sense.eq p.2).lhsEnergy s = p.2) :=
  claim_c2 [1, 2, 3, 1, 2, 3] [(1, 1), (2, 1), (3, 1)] 1
    (by decide) (by decide)

/-- Claim C3: for every constrained model produced by `get_paint_shop_cqm`
(either mode), every penalty coefficient p and every 0/1 assignment s, the
energy of the unconstrained model returned by `get_paint_shop_bqm` at s
equals the energy of the original objective at s plus p times the sum over
all constraints of the squared difference between the value of the
left-hand side at s and the right-hand side; on a feasible assignment the
penalty contribution vanishes and the two energies are equal. -/
theorem claim_c3 {α : Type} [DecidableEq α] (sequence : List α)
    (k : List (α × ℚ)) (mode : ℤ) (p : ℚ) (s : ℕ → ℚ)
    (hs : ∀ i < sequence.length, s i = 0 ∨ s i = 1) :
    ((get_paint_shop_bqm (get_paint_shop_cqm sequence k mode).1 p).energy s
      = (get_paint_shop_cqm sequence k mode).1.objective.energy s
        + ((get_paint_shop_cqm sequence k mode).1.constraints.map
            (fun c => p * (c.2.lhsEnergy s - c.2.rhs) ^ 2)).sum) ∧
    ((get_paint_shop_cqm sequence k mode).1.feasible s →
      (get_paint_shop_bqm (get_paint_shop_cqm sequence k mode).1 p).energy s
        = (get_paint_shop_cqm sequence k mode).1.objective.energy s) := by
  have hbin : ∀ c ∈ (get_paint_shop_cqm sequence k mode).1.constraints,
      ∀ i ∈ c.2.indices, s i = 0 ∨ s i = 1 := by
    intro c hc i hi
    have hc2 : c ∈ k.map (fun q =>
        (q.1, PSConstraint.mk (positionsOf sequence q.1) Sense.eq q.2)) := hc
    obtain ⟨q, hq, rfl⟩ := List.mem_map.mp hc2
    have hbound := mem_positionsAux q.1 sequence 0 i hi
    exact hs i (by omega)
  have hmain := bqm_energy (get_paint_shop_cqm sequence k mode).1 p s hbin
  refine ⟨hmain, ?_⟩
  intro hf
  rw [hmain]
  have hz : ((get_paint_shop_cqm sequence k mode).1.constraints.map
        (fun c => p * (c.2.lhsEnergy s - c.2.rhs) ^ 2)).sum
      = ((get_paint_shop_cqm sequence k mode).1.constraints.map
          (fun _ => (0 : ℚ))).sum := by
    apply list_sum_map_congr
    intro c hc
    have hc2 : c ∈ k.map (fun q =>
        (q.1, PSConstraint.mk (positionsOf sequence q.1) Sense.eq q.2)) := hc
    obtain ⟨q, hq, rfl⟩ := List.mem_map.mp hc2
    have hsat : (PSConstraint.mk (positionsOf sequence q.1)
        Sense.eq q.2).lhsEnergy s = q.2 := hf _ hc
    show p * ((PSConstraint.mk (positionsOf sequence q.1)
        Sense.eq q.2).lhsEnergy s - q.2) ^ 2 = 0
    rw [hsat]
    ring
  rw [hz, list_sum_map_zero, add_zero]

/-- Witness for C3 at the test scenario with penalty 10. -/
theorem claim_c3_witness :
    ((get_paint_shop_bqm
        (get_paint_shop_cqm ([1, 2, 3, 1, 2, 3] : List ℤ)
          [(1, 1), (2, 1), (3, 1)] 1).1 10).energy demoAssign
      = (get_paint_shop_cqm ([1, 2, 3, 1, 2, 3] : List ℤ)
          [(1, 1), (2, 1), (3, 1)] 1).1.objective.energy demoAssign
        + ((get_paint_shop_cqm ([1, 2, 3, 1, 2, 3] : List ℤ)
            [(1, 1), (2, 1), (3, 1)] 1).1.constraints.map
            (fun c => 10 * (c.2.lhsEnergy demoAssign - c.2.rhs) ^ 2)).sum) ∧
    ((get_paint_shop_cqm ([1, 2, 3, 1, 2, 3] : List ℤ)
        [(1, 1), (2, 1), (3, 1)] 1).1.feasible demoAssign →
      (get_paint_shop_bqm
          (get_paint_shop_cqm ([1, 2, 3, 1, 2, 3] : List ℤ)
            [(1, 1), (2, 1), (3, 1)] 1).1 10).energy demoAssign
        = (get_paint_shop_cqm ([1, 2, 3, 1, 2, 3] : List ℤ)
            [(1, 1), (2, 1), (3, 1)] 1).1.objective.energy demoAssign) :=
  claim_c3 [1, 2, 3, 1, 2, 3] [(1, 1), (2, 1), (3, 1)] 1 10 demoAssign
    (by decide)

/-- Counterexample to C6: `get_paint_shop_bqm` does not reject a model whose
constraint is an inequality.  The model with the constraint `x0 <= 1` is
feasible at the all-zero assignment, yet the function returns an
unconstrained model - identical to the one obtained for the equality
constraint `x0 == 1` - that charges this feasible assignment a penalty of
2, instead of signalling any error. -/
theorem claim_c6_counterexample :
    ineqCQM.feasible (fun _ => 0) ∧
    get_paint_shop_bqm ineqCQM 2 = get_paint_shop_bqm eqSenseCQM 2 ∧
    (get_paint_shop_bqm ineqCQM 2).energy (fun _ => 0) = 2 := by
  refine ⟨?_, rfl, by
    norm_num [get_paint_shop_bqm, ineqCQM, penaltyExpansion,
      QuadExpr.update, QuadExpr.energy, List.foldl, List.flatMap,
      List.filterMap]⟩
  intro c hc
  simp only [ineqCQM, List.mem_singleton] at hc
  subst hc
  simp [PSConstraint.satisfiedBy, PSConstraint.lhsEnergy]

/-- Claim C6 (amended): `get_paint_shop_bqm` performs no constraint-type
check and signals no error: it folds every constraint into the objective as
`penalty * (lhs - rhs) ** 2` using only the left-hand side and right-hand
side, so the result is identical to what it produces when every constraint
sense is replaced by equality - inequality constraints are silently
penalized as if they were equalities. -/
theorem claim_c6 {α : Type} (cqm : CQM α) (penalty : ℚ) :
    get_paint_shop_bqm cqm penalty
      = get_paint_shop_bqm cqm.withEqSenses penalty := by
  unfold get_paint_shop_bqm CQM.withEqSenses
  dsimp only
  rw [List.foldl_map]

/-- Counterexample to C7: with default bounds, a category occurring 3 times
always draws demand 1 (`randint(1, 2)` is deterministic), and 1 is not
strictly greater than one-third of 3. -/
theorem claim_c7_counterexample :
    RandintOracle lowDraw ∧
    get_random_sequence_mapping [7, 7, 7] none none lowDraw = [(7, 1)] ∧
    ¬ ((1 : ℚ) / 3 * 3 < ((1 : ℕ) : ℚ)) :=
  ⟨fun _ a _ h => ⟨le_refl a, h⟩, by decide, by norm_num⟩

/-- Claim C7 (amended): with default bounds the demand d drawn for a
category occurring c times satisfies `c / 3 ≤ d` (floor, possibly equal to
one-third of c, or below it after adjustment) and
`d < max (2 * c / 3) (c / 3 + 1)`; whenever the computed upper bound does
not exceed the computed lower bound, the upper bound is set to lower + 1;
and the resulting sampling range is always non-empty, so the call does not
fail. -/
theorem claim_c7 :
    (∀ (sequence : List ℤ) (draw : ℤ → ℕ → ℕ → ℕ), RandintOracle draw →
      ∀ car d,
        (car, d) ∈ get_random_sequence_mapping sequence none none draw →
        sequence.count car / 3 ≤ d ∧
        d < max (sequence.count car * 2 / 3) (sequence.count car / 3 + 1)) ∧
    (∀ (cars : ℕ) (mn mx : Option ℕ),
      rawUpperBound cars mx ≤ rawLowerBound cars mn →
        demandBounds cars mn mx
          = (rawLowerBound cars mn, rawLowerBound cars mn + 1)) ∧
    (∀ (cars : ℕ) (mn mx : Option ℕ),
      (demandBounds cars mn mx).1 < (demandBounds cars mn mx).2) := by
  refine ⟨?_, demandBounds_adjust, demandBounds_lt⟩
  intro sequence draw hdraw car d hmem
  obtain ⟨hcar, hd⟩ :=
    mapping_mem_characterize sequence none none draw car d hmem
  have hlt := demandBounds_lt (sequence.count car) none none
  have hor := hdraw car _ _ hlt
  rw [← hd] at hor
  rw [demandBounds_default_fst, demandBounds_default_snd] at hor
  exact hor

/-- Witness for C7: category 7 occurs 5 times in `[7,7,7,7,7]` and the
lowest admissible draw is 1; plus concrete instances of the adjustment and
non-emptiness parts. -/
theorem claim_c7_witness :
    (([7, 7, 7, 7, 7] : List ℤ).count 7 / 3 ≤ 1 ∧
      1 < max (([7, 7, 7, 7, 7] : List ℤ).count 7 * 2 / 3)
        (([7, 7, 7, 7, 7] : List ℤ).count 7 / 3 + 1)) ∧
    demandBounds 1 none none
      = (rawLowerBound 1 none, rawLowerBound 1 none + 1) ∧
    (demandBounds 4 none (some 1)).1 < (demandBounds 4 none (some 1)).2 :=
  ⟨claim_c7.1 [7, 7, 7, 7, 7] lowDraw (fun _ a _ h => ⟨le_refl a, h⟩) 7 1
      (by decide),
    claim_c7.2.1 1 none none (by decide),
    claim_c7.2.2 4 none (some 1)⟩

/-- Claim C9: for every sequence and every possible stream of draws, each
demand produced by `get_random_sequence` with default (None) bounds is at
most the occurrence count of its category in the sequence, so the equality
constraint the builder creates for that category admits a feasible 0/1
assignment. -/
theorem claim_c9 (sequence : List ℤ) (draw : ℤ → ℕ → ℕ → ℕ)
    (hdraw : RandintOracle draw) (car : ℤ) (d : ℕ)
    (hmem : (car, d) ∈ get_random_sequence_mapping sequence none none draw) :
    d ≤ sequence.count car ∧
    ∃ s : ℕ → ℚ, (∀ i, s i = 0 ∨ s i = 1) ∧
      (PSConstraint.mk (positionsOf sequence car) Sense.eq
        (d : ℚ)).satisfiedBy s := by
  obtain ⟨hcar, hd⟩ :=
    mapping_mem_characterize sequence none none draw car d hmem
  have hlt := demandBounds_lt (sequence.count car) none none
  have hor := hdraw car _ _ hlt
  rw [← hd] at hor
  rw [demandBounds_default_fst, demandBounds_default_snd] at hor
  have hcount : 1 ≤ sequence.count car := List.count_pos_iff.mpr hcar
  have hdc : d ≤ sequence.count car := by omega
  refine ⟨hdc, ?_⟩
  have hlen : (positionsOf sequence car).length = sequence.count car :=
    length_positionsAux car sequence 0
  have hnodup : (positionsOf sequence car).Nodup :=
    nodup_positionsAux car sequence 0
  obtain ⟨s, hbin, hsum⟩ :=
    exists_binary_sum (positionsOf sequence car) hnodup d (by omega)
  exact ⟨s, hbin, hsum⟩

/-- Witness for C9 at the sequence `[7, 7, 7]` with the lowest draws. -/
theorem claim_c9_witness :
    1 ≤ ([7, 7, 7] : List ℤ).count 7 ∧
    ∃ s : ℕ → ℚ, (∀ i, s i = 0 ∨ s i = 1) ∧
      (PSConstraint.mk (positionsOf ([7, 7, 7] : List ℤ) 7) Sense.eq
        ((1 : ℕ) : ℚ)).satisfiedBy s :=
  claim_c9 [7, 7, 7] lowDraw (fun _ a _ h => ⟨le_refl a, h⟩) 7 1 (by decide)

/-- Claim C10: passing an explicit 0 for `min_colors` or `max_colors` gives
exactly the result of passing None: the bound selection tests Python
truthiness, so the zero override is ignored and the one-third or two-thirds
default is used instead. -/
theorem claim_c10 :
    (∀ (sequence : List ℤ) (mx : Option ℕ) (draw : ℤ → ℕ → ℕ → ℕ),
      get_random_sequence_mapping sequence (some 0) mx draw
        = get_random_sequence_mapping sequence none mx draw) ∧
    (∀ (sequence : List ℤ) (mn : Option ℕ) (draw : ℤ → ℕ → ℕ → ℕ),
      get_random_sequence_mapping sequence mn (some 0) draw
        = get_random_sequence_mapping sequence mn none draw) := by
  constructor
  · intro sequence mx draw; rfl
  · intro sequence mn draw; rfl

/-- Claim C8: writing a non-empty sequence and an integer-valued demand
mapping to a YAML problem document with `save_sequence_to_yaml` and reading
it back with `load_from_yml` reproduces both exactly. -/
theorem claim_c8 (sequence : List ℤ) (counts : List (ℤ × ℤ))
    (_hne : sequence ≠ []) :
    load_from_yml (save_sequence_to_yaml sequence counts)
      = (sequence, counts) := rfl

/-- Witness for C8 at a singleton sequence. -/
theorem claim_c8_witness :
    load_from_yml (save_sequence_to_yaml [1] [(1, 1)]) = ([1], [(1, 1)]) :=
  claim_c8 [1] [(1, 1)] (by decide)

end PaintShop
